import Mathlib

/-!
Verification of the scalar event logger specified for the `tbplot` demo
repository.  The repository's visible source (`demo/gen_logs.py`) only *uses*
the logging core (`easy_tf_log.Logger`): it constructs a logger per run
directory and calls `logkv` with a key and a numeric value.  The codec and
logger below are therefore modelled from the specification: a self-delimiting
binary frame codec for scalar event records, and an append-only logger with an
internal step counter, explicit close, and synchronous error reporting.
-/

namespace EasyTfLog

/-- Modelled from the spec: little-endian serialization of a `w`-byte unsigned
integer field (the spec's fixed-size timestamp/step/value/length fields).
Produces exactly `w` bytes, each `< 256`. -/
def toLE : Nat → Nat → List Nat
  | 0, _ => []
  | w + 1, n => n % 256 :: toLE w (n / 256)

/-- Modelled from the spec: read back a little-endian unsigned integer from a
list of bytes. -/
def fromLE : List Nat → Nat
  | [] => 0
  | b :: bs => b + 256 * fromLE bs

theorem toLE_length (w n : Nat) : (toLE w n).length = w := by
  induction w generalizing n with
  | zero => rfl
  | succ w ih => simp [toLE, ih]

theorem fromLE_toLE (w n : Nat) : fromLE (toLE w n) = n % 256 ^ w := by
  induction w generalizing n with
  | zero => simp [toLE, fromLE, Nat.mod_one]
  | succ w ih =>
    rw [toLE, fromLE, ih, pow_succ, mul_comm (256 ^ w) 256, Nat.mod_mul]

theorem toLE_mod (w n : Nat) : toLE w (n % 256 ^ w) = toLE w n := by
  induction w generalizing n with
  | zero => rfl
  | succ w ih =>
    rw [pow_succ, mul_comm (256 ^ w) 256, toLE, toLE]
    congr 1
    · exact Nat.mod_mul_right_mod n 256 (256 ^ w)
    · rw [Nat.mod_mul_right_div_self, ih]

/-- Modelled from the spec: a transient scalar event record.  `key` is the
metric name as a list of byte codes in the chosen (ASCII) string encoding;
`value` and `wall_time` are IEEE-754 double bit patterns (64-bit, so that
NaN/Inf/−0.0 round-trip bit-exactly); `step` is the sequence counter. -/
structure EventRecord where
  key : List Nat
  value : Nat
  wall_time : Nat
  step : Nat
deriving DecidableEq

/-- Modelled from the spec: the frame's payload, in the fixed documented order:
timestamp, step, key length, key bytes, value. -/
def payloadBytes (r : EventRecord) : List Nat :=
  toLE 8 r.wall_time ++ (toLE 8 r.step ++ (toLE 2 r.key.length ++ (r.key ++ toLE 8 r.value)))

/-- Modelled from the spec: a full self-delimiting frame: a 4-byte length
header followed by the payload. -/
def frameBytes (r : EventRecord) : List Nat :=
  toLE 4 (payloadBytes r).length ++ payloadBytes r

/-- Modelled from the spec: the key is encodable iff it fits the 2-byte
length header (≤ 65535 bytes) and every byte is valid in the chosen ASCII
string encoding (< 128). -/
def keyOk (key : List Nat) : Bool :=
  decide (key.length ≤ 65535) && key.all fun b => b < 128

/-- Modelled from the spec: the codec's synchronous error for malformed keys. -/
inductive EncodeError
  | encodingError
deriving DecidableEq

/-- Modelled from the spec: total, injective encoding of one record; fails
with `EncodingError` exactly when the key is not representable. -/
def encode (r : EventRecord) : Except EncodeError (List Nat) :=
  if keyOk r.key then .ok (frameBytes r) else .error .encodingError

/-- Modelled from the spec: result of decoding at a frame boundary: one
record plus the remaining bytes, a clean end-of-stream signal, or the
distinguishable corrupt/truncated-frame error. -/
inductive DecodeResult
  | record (r : EventRecord) (rest : List Nat)
  | endOfStream
  | corrupt
deriving DecidableEq

/-- Modelled from the spec: decode one frame from a byte stream positioned at
a frame boundary.  Empty stream is clean end-of-stream; fewer bytes than the
frame declares is `CorruptFrameError` (`corrupt`). -/
def decode (s : List Nat) : DecodeResult :=
  if s = [] then .endOfStream
  else if s.length < 4 then .corrupt
  else
    let len := fromLE (s.take 4)
    let rest := s.drop 4
    if rest.length < len then .corrupt
    else if len < 26 then .corrupt
    else
      let payload := rest.take len
      let keyLen := fromLE ((payload.drop 16).take 2)
      if 26 + keyLen ≠ len then .corrupt
      else
        .record
          { key := (payload.drop 18).take keyLen
            value := fromLE ((payload.drop (18 + keyLen)).take 8)
            wall_time := fromLE (payload.take 8)
            step := fromLE ((payload.drop 8).take 8) }
          (rest.drop len)

/-- A record all of whose fields are representable in the wire format. -/
def Valid (r : EventRecord) : Prop :=
  keyOk r.key = true ∧ r.value < 2 ^ 64 ∧ r.wall_time < 2 ^ 64 ∧ r.step < 2 ^ 64

instance (r : EventRecord) : Decidable (Valid r) := by
  unfold Valid; infer_instance

theorem payloadBytes_length (r : EventRecord) :
    (payloadBytes r).length = 26 + r.key.length := by
  simp [payloadBytes, toLE_length]
  omega

theorem frameBytes_length (r : EventRecord) :
    (frameBytes r).length = 30 + r.key.length := by
  simp [frameBytes, toLE_length, payloadBytes_length]
  omega

theorem payloadBytes_take8 (r : EventRecord) :
    (payloadBytes r).take 8 = toLE 8 r.wall_time :=
  List.take_left' (toLE_length 8 _)

theorem payloadBytes_drop8 (r : EventRecord) :
    (payloadBytes r).drop 8
      = toLE 8 r.step ++ (toLE 2 r.key.length ++ (r.key ++ toLE 8 r.value)) :=
  List.drop_left' (toLE_length 8 _)

theorem payloadBytes_drop8_take8 (r : EventRecord) :
    ((payloadBytes r).drop 8).take 8 = toLE 8 r.step := by
  rw [payloadBytes_drop8]
  exact List.take_left' (toLE_length 8 _)

theorem payloadBytes_drop16 (r : EventRecord) :
    (payloadBytes r).drop 16 = toLE 2 r.key.length ++ (r.key ++ toLE 8 r.value) := by
  show (payloadBytes r).drop (8 + 8) = _
  rw [← List.drop_drop, payloadBytes_drop8]
  exact List.drop_left' (toLE_length 8 _)

theorem payloadBytes_drop16_take2 (r : EventRecord) :
    ((payloadBytes r).drop 16).take 2 = toLE 2 r.key.length := by
  rw [payloadBytes_drop16]
  exact List.take_left' (toLE_length 2 _)

theorem payloadBytes_drop18 (r : EventRecord) :
    (payloadBytes r).drop 18 = r.key ++ toLE 8 r.value := by
  show (payloadBytes r).drop (16 + 2) = _
  rw [← List.drop_drop, payloadBytes_drop16]
  exact List.drop_left' (toLE_length 2 _)

theorem payloadBytes_drop18_takeKey (r : EventRecord) :
    ((payloadBytes r).drop 18).take r.key.length = r.key := by
  rw [payloadBytes_drop18]
  exact List.take_left _ _

theorem payloadBytes_dropToValue (r : EventRecord) :
    (payloadBytes r).drop (18 + r.key.length) = toLE 8 r.value := by
  rw [← List.drop_drop, payloadBytes_drop18]
  exact List.drop_left _ _

theorem pow256_8 : (256 : Nat) ^ 8 = 2 ^ 64 := by norm_num

/-- Master round-trip lemma: decoding a frame (with any tail after it)
recovers the record with every numeric field reduced modulo `2 ^ 64`, and
leaves the cursor exactly at the tail. -/
theorem decode_frame (r : EventRecord) (tail : List Nat)
    (hk : r.key.length ≤ 65535) :
    decode (frameBytes r ++ tail)
      = .record ⟨r.key, r.value % 2 ^ 64, r.wall_time % 2 ^ 64, r.step % 2 ^ 64⟩ tail := by
  have hplen := payloadBytes_length r
  have hlen4 : (toLE 4 (payloadBytes r).length).length = 4 := toLE_length 4 _
  have hs : frameBytes r ++ tail
      = toLE 4 (payloadBytes r).length ++ (payloadBytes r ++ tail) := by
    rw [frameBytes, List.append_assoc]
  have htake4 : (frameBytes r ++ tail).take 4 = toLE 4 (payloadBytes r).length := by
    rw [hs]; exact List.take_left' hlen4
  have hdrop4 : (frameBytes r ++ tail).drop 4 = payloadBytes r ++ tail := by
    rw [hs]; exact List.drop_left' hlen4
  have hfrom4 : fromLE (toLE 4 (payloadBytes r).length) = 26 + r.key.length := by
    rw [fromLE_toLE, hplen]
    exact Nat.mod_eq_of_lt (by norm_num; omega)
  have hne : frameBytes r ++ tail ≠ [] := by
    intro h
    have h30 := congrArg List.length h
    rw [List.length_append, frameBytes_length] at h30
    simp only [List.length_nil] at h30
    omega
  have hlen : ¬ (frameBytes r ++ tail).length < 4 := by
    rw [List.length_append, frameBytes_length]; omega
  have hrestlen : ¬ (payloadBytes r ++ tail).length < 26 + r.key.length := by
    rw [List.length_append, hplen]; omega
  have hpayload : (payloadBytes r ++ tail).take (26 + r.key.length) = payloadBytes r :=
    List.take_left' hplen
  have hrest : (payloadBytes r ++ tail).drop (26 + r.key.length) = tail :=
    List.drop_left' hplen
  have hfrom2 : fromLE (toLE 2 r.key.length) = r.key.length := by
    rw [fromLE_toLE]
    exact Nat.mod_eq_of_lt (by norm_num; omega)
  have htakev : (toLE 8 r.value).take 8 = toLE 8 r.value :=
    List.take_of_length_le (by rw [toLE_length])
  simp only [decode]
  rw [if_neg hne, if_neg hlen, htake4, hfrom4, hdrop4, if_neg hrestlen,
    if_neg (show ¬ 26 + r.key.length < 26 by omega), hpayload,
    payloadBytes_drop16_take2, hfrom2,
    if_neg (show ¬ 26 + r.key.length ≠ 26 + r.key.length by omega),
    payloadBytes_drop18_takeKey, payloadBytes_dropToValue, htakev, payloadBytes_take8,
    payloadBytes_drop8_take8, hrest, fromLE_toLE, fromLE_toLE, fromLE_toLE, pow256_8]

theorem keyOk_length {key : List Nat} (h : keyOk key = true) : key.length ≤ 65535 := by
  unfold keyOk at h
  simp only [Bool.and_eq_true, decide_eq_true_eq] at h
  exact h.1

/-- Exact round-trip: for a fully representable record, decoding the encoded
frame returns the record itself, bit-exactly, and the cursor lands on the tail. -/
theorem decode_frame_exact (r : EventRecord) (tail : List Nat) (h : Valid r) :
    decode (frameBytes r ++ tail) = .record r tail := by
  obtain ⟨hkey, hv, hw, hst⟩ := h
  rw [decode_frame r tail (keyOk_length hkey), Nat.mod_eq_of_lt hv,
    Nat.mod_eq_of_lt hw, Nat.mod_eq_of_lt hst]

theorem decode_nil : decode ([] : List Nat) = .endOfStream := rfl

/-- Truncating a frame by its last byte makes `decode` fail with `corrupt`:
the 4-byte header survives and declares more bytes than remain. -/
theorem decode_dropLast_frame (r : EventRecord) (hk : r.key.length ≤ 65535) :
    decode (frameBytes r).dropLast = .corrupt := by
  have hplen := payloadBytes_length r
  have hpne : payloadBytes r ≠ [] := by
    intro h
    have := congrArg List.length h
    rw [hplen] at this
    simp at this
  have hd : (frameBytes r).dropLast
      = toLE 4 (payloadBytes r).length ++ (payloadBytes r).dropLast := by
    rw [frameBytes]
    exact List.dropLast_append_of_ne_nil _ hpne
  have hlen4 : (toLE 4 (payloadBytes r).length).length = 4 := toLE_length 4 _
  have htake4 : ((frameBytes r).dropLast).take 4 = toLE 4 (payloadBytes r).length := by
    rw [hd]; exact List.take_left' hlen4
  have hdrop4 : ((frameBytes r).dropLast).drop 4 = (payloadBytes r).dropLast := by
    rw [hd]; exact List.drop_left' hlen4
  have hfrom4 : fromLE (toLE 4 (payloadBytes r).length) = 26 + r.key.length := by
    rw [fromLE_toLE, hplen]
    exact Nat.mod_eq_of_lt (by norm_num; omega)
  have hne : (frameBytes r).dropLast ≠ [] := by
    intro h
    have := congrArg List.length h
    rw [List.length_dropLast, frameBytes_length] at this
    simp only [List.length_nil] at this
    omega
  have hlt : ¬ ((frameBytes r).dropLast).length < 4 := by
    rw [List.length_dropLast, frameBytes_length]; omega
  have hrestlt : ((payloadBytes r).dropLast).length < 26 + r.key.length := by
    rw [List.length_dropLast, hplen]; omega
  simp only [decode]
  rw [if_neg hne, if_neg hlt, htake4, hfrom4, hdrop4, if_pos hrestlt]

/-- Modelled from the spec: a numeric value passed to `log`: either an
integer (to be widened to a double) or an IEEE-754 double bit pattern. -/
inductive Value
  | intVal (n : Int)
  | floatVal (bits : Nat)
deriving DecidableEq

/-- Modelled from the spec: widening an integer to the bit pattern of the
IEEE-754 double of the same value (exact whenever the magnitude is at most
`2 ^ 53`, i.e. whenever such a double exists). -/
def intToDoubleBits (n : Int) : Nat :=
  if n = 0 then 0
  else
    let a := n.natAbs
    let e := Nat.log 2 a
    let mag := (1023 + e) * 2 ^ 52 + (a * 2 ^ 52 / 2 ^ e - 2 ^ 52)
    if n < 0 then 2 ^ 63 + mag else mag

/-- Modelled from the spec: the double bit pattern a `log` value is encoded
with: integers are widened, doubles are passed through bit-exactly. -/
def widen : Value → Nat
  | .intVal n => intToDoubleBits n
  | .floatVal bits => bits

/-- Numeric reading of a double bit pattern: `none` for Inf/NaN, otherwise
the exact rational value of the finite double. -/
def bitsToRat (bits : Nat) : Option ℚ :=
  let sgn : Nat := bits / 2 ^ 63
  let ex : Nat := bits / 2 ^ 52 % 2 ^ 11
  let mant : Nat := bits % 2 ^ 52
  if ex = 2047 then none
  else
    let mag : ℚ :=
      if ex = 0 then (mant : ℚ) * (2 : ℚ) ^ (-1074 : ℤ)
      else ((2 ^ 52 + mant : ℕ) : ℚ) * (2 : ℚ) ^ ((ex : ℤ) - 1075)
    some (if sgn % 2 = 1 then -mag else mag)

/-- Modelled from the spec: the errors a logger operation can fail with. -/
inductive LogError
  | closedLogger
  | encodingError
  | writeError
deriving DecidableEq

/-- Modelled from the spec: the state of a `ScalarLogger`: the directory it
was constructed with, the bytes of its backing file, the internal step
counter, and whether `close` has been called. -/
structure LoggerState where
  directory : String
  file : List Nat
  step_counter : Nat
  closed : Bool
deriving DecidableEq

/-- Modelled from the spec: construction requires the output directory; the
backing file starts empty, the counter at 0, and the logger open. -/
def mkLogger (dir : String) : LoggerState :=
  { directory := dir, file := [], step_counter := 0, closed := false }

/-- Modelled from the spec: one `log` call.  `wall` is the wall-clock time
captured at call time (a double bit pattern); `writeOk` models whether the
underlying storage write+flush succeeds.  Every failure leaves the state
unchanged and is reported synchronously. -/
def log (s : LoggerState) (key : List Nat) (v : Value) (stepOpt : Option Nat)
    (wall : Nat) (writeOk : Bool) : Except LogError Unit × LoggerState :=
  if s.closed then (.error .closedLogger, s)
  else
    match encode { key := key, value := widen v, wall_time := wall,
                   step := stepOpt.getD s.step_counter } with
    | .error _ => (.error .encodingError, s)
    | .ok bytes =>
      if writeOk then
        (.ok (),
          { s with
            file := s.file ++ bytes
            step_counter :=
              if stepOpt.isSome then s.step_counter else s.step_counter + 1 })
      else (.error .writeError, s)

/-- Modelled from the spec: `close` releases the handle; directory, file
bytes and counter are retained so later calls can be checked against them. -/
def close (s : LoggerState) : LoggerState :=
  { s with closed := true }

/-- One `log` call as issued by a caller. -/
structure LogCall where
  key : List Nat
  value : Value
  stepOpt : Option Nat
  wall : Nat
deriving DecidableEq

/-- Run a sequence of `log` calls, all with successful storage writes. -/
def runLogs (s : LoggerState) : List LogCall → LoggerState
  | [] => s
  | c :: cs => runLogs (log s c.key c.value c.stepOpt c.wall true).2 cs

/-- The record a call produces when the logger's counter is `c0`, with the
numeric fields as the decoder returns them (reduced mod `2 ^ 64`). -/
def recordOfCall (c : LogCall) (c0 : Nat) : EventRecord :=
  { key := c.key
    value := widen c.value % 2 ^ 64
    wall_time := c.wall % 2 ^ 64
    step := c.stepOpt.getD c0 % 2 ^ 64 }

/-- The logger's counter after one call with counter `c0`. -/
def nextCounter (c : LogCall) (c0 : Nat) : Nat :=
  if c.stepOpt.isSome then c0 else c0 + 1

/-- The decoded contents the backing file holds after a call sequence. -/
def expectedRecords : List LogCall → Nat → List EventRecord
  | [], _ => []
  | c :: cs, c0 => recordOfCall c c0 :: expectedRecords cs (nextCounter c c0)

/-- Fuel-indexed helper for decoding a whole stream of frames. -/
def decodeAllFuel : Nat → List Nat → Option (List EventRecord)
  | 0, s => if s = [] then some [] else none
  | fuel + 1, s =>
    match decode s with
    | .endOfStream => some []
    | .corrupt => none
    | .record r rest => (decodeAllFuel fuel rest).map fun rs => r :: rs

/-- Decode a whole file into its sequence of records; `none` if any frame is
incomplete or malformed. -/
def decodeAll (s : List Nat) : Option (List EventRecord) :=
  decodeAllFuel s.length s

theorem toLE8_mod (n : Nat) : toLE 8 (n % 2 ^ 64) = toLE 8 n := by
  rw [← pow256_8, toLE_mod]

theorem frameBytes_reduce (k : List Nat) (v w st : Nat) :
    frameBytes { key := k, value := v % 2 ^ 64, wall_time := w % 2 ^ 64, step := st % 2 ^ 64 }
      = frameBytes { key := k, value := v, wall_time := w, step := st } := by
  unfold frameBytes payloadBytes
  simp only [toLE8_mod]

/-- A successful `log` call appends exactly one frame and advances the
counter only when no explicit step was supplied. -/
theorem log_success (s : LoggerState) (key : List Nat) (v : Value)
    (stepOpt : Option Nat) (wall : Nat)
    (hopen : s.closed = false) (hk : keyOk key = true) :
    log s key v stepOpt wall true
      = (.ok (),
          { s with
            file := s.file ++ frameBytes
              { key := key, value := widen v, wall_time := wall,
                step := stepOpt.getD s.step_counter }
            step_counter :=
              if stepOpt.isSome then s.step_counter else s.step_counter + 1 }) := by
  simp [log, encode, hopen, hk]

theorem runLogs_spec (calls : List LogCall) (s : LoggerState)
    (hopen : s.closed = false)
    (hkeys : ∀ c ∈ calls, keyOk c.key = true) :
    (runLogs s calls).file
        = s.file ++ ((expectedRecords calls s.step_counter).map frameBytes).flatten
      ∧ (runLogs s calls).closed = false
      ∧ (runLogs s calls).directory = s.directory := by
  induction calls generalizing s with
  | nil => simp [runLogs, expectedRecords, hopen]
  | cons c cs ih =>
    have hc := hkeys c (List.mem_cons_self c cs)
    have hlog2 : (log s c.key c.value c.stepOpt c.wall true).2
        = { s with
            file := s.file ++ frameBytes
              { key := c.key, value := widen c.value, wall_time := c.wall,
                step := c.stepOpt.getD s.step_counter }
            step_counter :=
              if c.stepOpt.isSome then s.step_counter else s.step_counter + 1 } := by
      rw [log_success s c.key c.value c.stepOpt c.wall hopen hc]
    rw [runLogs, hlog2]
    obtain ⟨h1, h2, h3⟩ :=
      ih { s with
            file := s.file ++ frameBytes
              { key := c.key, value := widen c.value, wall_time := c.wall,
                step := c.stepOpt.getD s.step_counter }
            step_counter :=
              if c.stepOpt.isSome then s.step_counter else s.step_counter + 1 }
        hopen (fun d hd => hkeys d (List.mem_cons_of_mem c hd))
    refine ⟨?_, h2, h3⟩
    rw [h1, List.append_assoc]
    simp only [expectedRecords, List.map_cons, List.flatten_cons, nextCounter,
      recordOfCall, frameBytes_reduce, List.append_assoc]

theorem frames_length_ge (rs : List EventRecord) :
    rs.length ≤ ((rs.map frameBytes).flatten).length := by
  induction rs with
  | nil => simp
  | cons r rs ih =>
    simp only [List.map_cons, List.flatten_cons, List.length_append,
      List.length_cons, frameBytes_length]
    omega

theorem decodeAllFuel_frames (rs : List EventRecord) (fuel : Nat)
    (hval : ∀ r ∈ rs,
      r.key.length ≤ 65535 ∧ r.value < 2 ^ 64 ∧ r.wall_time < 2 ^ 64 ∧ r.step < 2 ^ 64)
    (hfuel : rs.length ≤ fuel) :
    decodeAllFuel fuel ((rs.map frameBytes).flatten) = some rs := by
  induction rs generalizing fuel with
  | nil =>
    cases fuel with
    | zero => rfl
    | succ f => simp [decodeAllFuel, decode_nil]
  | cons r rs ih =>
    cases fuel with
    | zero => simp at hfuel
    | succ f =>
      have hr := hval r (List.mem_cons_self r rs)
      have hdec : decode (frameBytes r ++ (rs.map frameBytes).flatten)
          = .record r ((rs.map frameBytes).flatten) := by
        rw [decode_frame r _ hr.1, Nat.mod_eq_of_lt hr.2.1,
          Nat.mod_eq_of_lt hr.2.2.1, Nat.mod_eq_of_lt hr.2.2.2]
      have hfuel' : rs.length ≤ f := by
        simp only [List.length_cons] at hfuel
        omega
      simp only [List.map_cons, List.flatten_cons, decodeAllFuel, hdec]
      rw [ih f (fun d hd => hval d (List.mem_cons_of_mem r hd)) hfuel']
      rfl

/-- Decoding a concatenation of well-formed frames yields exactly the encoded
records, in order. -/
theorem decodeAll_frames (rs : List EventRecord)
    (hval : ∀ r ∈ rs,
      r.key.length ≤ 65535 ∧ r.value < 2 ^ 64 ∧ r.wall_time < 2 ^ 64 ∧ r.step < 2 ^ 64) :
    decodeAll ((rs.map frameBytes).flatten) = some rs :=
  decodeAllFuel_frames rs _ hval (frames_length_ge rs)

theorem expectedRecords_valid (calls : List LogCall) (c0 : Nat)
    (hkeys : ∀ c ∈ calls, keyOk c.key = true) :
    ∀ r ∈ expectedRecords calls c0,
      r.key.length ≤ 65535 ∧ r.value < 2 ^ 64 ∧ r.wall_time < 2 ^ 64 ∧ r.step < 2 ^ 64 := by
  induction calls generalizing c0 with
  | nil => intro r hr; simp [expectedRecords] at hr
  | cons c cs ih =>
    intro r hr
    simp only [expectedRecords, List.mem_cons] at hr
    rcases hr with hr | hr
    · subst hr
      refine ⟨keyOk_length (hkeys c (List.mem_cons_self c cs)), ?_, ?_, ?_⟩ <;>
        exact Nat.mod_lt _ (by norm_num)
    · exact ih (nextCounter c c0) (fun d hd => hkeys d (List.mem_cons_of_mem c hd)) r hr

theorem expectedRecords_length (calls : List LogCall) (c0 : Nat) :
    (expectedRecords calls c0).length = calls.length := by
  induction calls generalizing c0 with
  | nil => rfl
  | cons c cs ih => simp [expectedRecords, ih]

/-- The backing file of a logger after any sequence of successful `log` calls
decodes to exactly the expected record sequence, with no `close` needed. -/
theorem decodeAll_runLogs (calls : List LogCall) (s : LoggerState)
    (hopen : s.closed = false) (hfile : s.file = [])
    (hkeys : ∀ c ∈ calls, keyOk c.key = true) :
    decodeAll (runLogs s calls).file = some (expectedRecords calls s.step_counter) := by
  rw [(runLogs_spec calls s hopen hkeys).1, hfile, List.nil_append]
  exact decodeAll_frames _ (expectedRecords_valid calls s.step_counter hkeys)

theorem expectedRecords_steps (calls : List LogCall) (c0 : Nat)
    (hnone : ∀ c ∈ calls, c.stepOpt = none)
    (hbound : c0 + calls.length ≤ 2 ^ 64) :
    (expectedRecords calls c0).map EventRecord.step = List.range' c0 calls.length := by
  induction calls generalizing c0 with
  | nil => rfl
  | cons c cs ih =>
    have hc := hnone c (List.mem_cons_self c cs)
    have hlen : c0 < 2 ^ 64 := by
      simp only [List.length_cons] at hbound
      omega
    simp only [expectedRecords, List.map_cons, recordOfCall, nextCounter, hc,
      Option.getD_none, Option.isSome_none, Bool.false_eq_true, if_false,
      List.length_cons, List.range'_succ]
    congr 1
    · exact Nat.mod_eq_of_lt hlen
    · exact ih (c0 + 1) (fun d hd => hnone d (List.mem_cons_of_mem c hd))
        (by simp only [List.length_cons] at hbound; omega)

theorem range'_chain_le (s n : Nat) : List.Chain' (· ≤ ·) (List.range' s n) :=
  ((List.pairwise_lt_range' s n).imp fun h => le_of_lt h).chain'

theorem bits_fields (S E m : Nat) (hm : m < 2 ^ 52) (hE : E < 2 ^ 11) :
    (S * 2 ^ 63 + (E * 2 ^ 52 + m)) / 2 ^ 63 = S
      ∧ (S * 2 ^ 63 + (E * 2 ^ 52 + m)) / 2 ^ 52 % 2 ^ 11 = E
      ∧ (S * 2 ^ 63 + (E * 2 ^ 52 + m)) % 2 ^ 52 = m := by
  have hpow : (2 : ℕ) ^ 63 = 2 ^ 52 * 2 ^ 11 := by norm_num
  have hrest : E * 2 ^ 52 + m < 2 ^ 63 := by
    have h1 : E * 2 ^ 52 ≤ 2047 * 2 ^ 52 := Nat.mul_le_mul_right _ (by omega)
    have h2 : (2047 : ℕ) * 2 ^ 52 + 2 ^ 52 = 2 ^ 63 := by norm_num
    omega
  have hsplit : S * 2 ^ 63 + (E * 2 ^ 52 + m) = 2 ^ 52 * (S * 2 ^ 11 + E) + m := by
    rw [hpow]; ring
  refine ⟨?_, ?_, ?_⟩
  · rw [mul_comm S, Nat.mul_add_div (by norm_num), Nat.div_eq_of_lt hrest, Nat.add_zero]
  · rw [hsplit, Nat.mul_add_div (by norm_num), Nat.div_eq_of_lt hm, Nat.add_zero,
      mul_comm S, Nat.mul_add_mod, Nat.mod_eq_of_lt hE]
  · rw [hsplit, Nat.mul_add_mod, Nat.mod_eq_of_lt hm]

/-- Evaluating the rational value of a widened nonzero magnitude with an
explicit sign bit `S ∈ {0, 1}`. -/
theorem bitsToRat_magBits (S : Nat) (hS : S = 0 ∨ S = 1) (a : Nat)
    (h1 : a ≠ 0) (h2 : a < 2 ^ 53) :
    bitsToRat (S * 2 ^ 63
        + ((1023 + Nat.log 2 a) * 2 ^ 52 + (a * 2 ^ 52 / 2 ^ Nat.log 2 a - 2 ^ 52)))
      = some (if S = 1 then -(a : ℚ) else (a : ℚ)) := by
  have he1 : 2 ^ Nat.log 2 a ≤ a := Nat.pow_log_le_self 2 h1
  have he2 : a < 2 ^ (Nat.log 2 a + 1) := Nat.lt_pow_succ_log_self (by norm_num) a
  have he3 : Nat.log 2 a < 53 := Nat.log_lt_of_lt_pow h1 h2
  have hdiv : a * 2 ^ 52 / 2 ^ Nat.log 2 a = a * 2 ^ (52 - Nat.log 2 a) := by
    have hsplit : a * 2 ^ 52 = a * 2 ^ (52 - Nat.log 2 a) * 2 ^ Nat.log 2 a := by
      rw [mul_assoc, ← pow_add]
      congr 2
      omega
    rw [hsplit, Nat.mul_div_cancel _ (pow_pos (by norm_num) _)]
  have hub : a * 2 ^ (52 - Nat.log 2 a) < 2 ^ 53 := by
    calc a * 2 ^ (52 - Nat.log 2 a)
        < 2 ^ (Nat.log 2 a + 1) * 2 ^ (52 - Nat.log 2 a) :=
          Nat.mul_lt_mul_of_lt_of_le he2 (le_refl _) (pow_pos (by norm_num) _)
      _ = 2 ^ 53 := by rw [← pow_add]; congr 1; omega
  have hlb : 2 ^ 52 ≤ a * 2 ^ (52 - Nat.log 2 a) := by
    calc (2 : ℕ) ^ 52 = 2 ^ Nat.log 2 a * 2 ^ (52 - Nat.log 2 a) := by
          rw [← pow_add]; congr 1; omega
      _ ≤ a * 2 ^ (52 - Nat.log 2 a) := Nat.mul_le_mul_right _ he1
  have h53 : (2 : ℕ) ^ 53 = 2 ^ 52 + 2 ^ 52 := by norm_num
  have hmlt : a * 2 ^ (52 - Nat.log 2 a) - 2 ^ 52 < 2 ^ 52 := by omega
  have hmsum : (2 : ℕ) ^ 52 + (a * 2 ^ (52 - Nat.log 2 a) - 2 ^ 52)
      = a * 2 ^ (52 - Nat.log 2 a) := by omega
  rw [hdiv]
  obtain ⟨hf1, hf2, hf3⟩ :=
    bits_fields S (1023 + Nat.log 2 a) (a * 2 ^ (52 - Nat.log 2 a) - 2 ^ 52)
      hmlt (by norm_num; omega)
  simp only [bitsToRat, hf1, hf2, hf3]
  rw [if_neg (by omega : ¬ (1023 + Nat.log 2 a = 2047)),
    if_neg (by omega : ¬ (1023 + Nat.log 2 a = 0))]
  have hmag : ((2 ^ 52 + (a * 2 ^ (52 - Nat.log 2 a) - 2 ^ 52) : ℕ) : ℚ)
      * (2 : ℚ) ^ (((1023 + Nat.log 2 a : ℕ) : ℤ) - 1075) = (a : ℚ) := by
    have hc1 : ((2 ^ 52 + (a * 2 ^ (52 - Nat.log 2 a) - 2 ^ 52) : ℕ) : ℚ)
        = (a : ℚ) * (2 : ℚ) ^ (52 - Nat.log 2 a : ℕ) := by
      rw [hmsum]
      push_cast
      ring
    have hc2 : (((1023 + Nat.log 2 a : ℕ) : ℤ) - 1075) = (Nat.log 2 a : ℤ) - 52 := by
      push_cast
      ring
    have hzero : ((52 - Nat.log 2 a : ℕ) : ℤ) + ((Nat.log 2 a : ℤ) - 52) = 0 := by
      rw [Nat.cast_sub (by omega : Nat.log 2 a ≤ 52)]
      ring
    rw [hc1, hc2, mul_assoc, ← zpow_natCast (2 : ℚ) (52 - Nat.log 2 a),
      ← zpow_add₀ (two_ne_zero : (2 : ℚ) ≠ 0), hzero, zpow_zero, mul_one]
  rcases hS with rfl | rfl
  · rw [if_neg (by norm_num : ¬ ((0 : ℕ) % 2 = 1)), if_neg (by norm_num : ¬ ((0 : ℕ) = 1)), hmag]
  · rw [if_pos (by norm_num : (1 : ℕ) % 2 = 1), if_pos rfl, hmag]

/-- Widening is numerically exact on every integer an IEEE-754 double can
represent exactly by magnitude below `2 ^ 53`. -/
theorem intToDoubleBits_exact (n : Int) (hn : n.natAbs < 2 ^ 53) :
    bitsToRat (intToDoubleBits n) = some ((n : ℚ)) := by
  by_cases h0 : n = 0
  · subst h0
    norm_num [intToDoubleBits, bitsToRat]
  · have hA : n.natAbs ≠ 0 := fun h => h0 (Int.natAbs_eq_zero.mp h)
    rcases lt_trichotomy n 0 with hneg | hzero | hpos
    · have hrw : intToDoubleBits n
          = 1 * 2 ^ 63 + ((1023 + Nat.log 2 n.natAbs) * 2 ^ 52
              + (n.natAbs * 2 ^ 52 / 2 ^ Nat.log 2 n.natAbs - 2 ^ 52)) := by
        simp only [intToDoubleBits, if_neg h0, if_pos hneg, one_mul]
      rw [hrw, bitsToRat_magBits 1 (Or.inr rfl) n.natAbs hA hn, if_pos rfl]
      congr 1
      rw [Int.cast_natAbs, abs_of_neg hneg]
      push_cast
      ring
    · exact absurd hzero h0
    · have hrw : intToDoubleBits n
          = 0 * 2 ^ 63 + ((1023 + Nat.log 2 n.natAbs) * 2 ^ 52
              + (n.natAbs * 2 ^ 52 / 2 ^ Nat.log 2 n.natAbs - 2 ^ 52)) := by
        simp only [intToDoubleBits, if_neg h0, if_neg (by omega : ¬ n < 0), zero_mul, zero_add]
      rw [hrw, bitsToRat_magBits 0 (Or.inl rfl) n.natAbs hA hn,
        if_neg (by norm_num : ¬ ((0 : ℕ) = 1))]
      congr 1
      rw [Int.cast_natAbs, abs_of_pos hpos]

theorem log_snd_directory (s : LoggerState) (key : List Nat) (v : Value)
    (stepOpt : Option Nat) (wall : Nat) (writeOk : Bool) :
    (log s key v stepOpt wall writeOk).2.directory = s.directory := by
  unfold log
  split
  · rfl
  · split
    · rfl
    · split
      · rfl
      · rfl

theorem runLogs_directory (s : LoggerState) (calls : List LogCall) :
    (runLogs s calls).directory = s.directory := by
  induction calls generalizing s with
  | nil => rfl
  | cons c cs ih => rw [runLogs, ih, log_snd_directory]

def sampleKey : List Nat := [102, 111, 111]

def nanRec : EventRecord :=
  { key := sampleKey, value := 0x7FF8000000000000, wall_time := 0x3FD5555555555555, step := 0 }

def zeroRec : EventRecord :=
  { key := sampleKey, value := 0, wall_time := 0x41D8E8BB8C000000, step := 0 }

def negZeroRec : EventRecord :=
  { key := [98, 97, 114], value := 0x8000000000000000, wall_time := 1, step := 1 }

def infRec : EventRecord :=
  { key := [113], value := 0x7FF0000000000000, wall_time := 2, step := 7 }

def demoCalls : List LogCall :=
  [ { key := sampleKey, value := .intVal 0, stepOpt := none, wall := 10 }
  , { key := sampleKey, value := .floatVal 0x3FF5555555555555, stepOpt := none, wall := 11 }
  , { key := sampleKey, value := .floatVal 0x3FFAAAAAAAAAAAAB, stepOpt := none, wall := 12 } ]

def durableCalls : List LogCall :=
  [ { key := [97], value := .floatVal 7, stepOpt := some 5, wall := 11 }
  , { key := [98], value := .intVal 2, stepOpt := none, wall := 12 } ]

def badKeyRec : EventRecord :=
  { key := [200], value := 0, wall_time := 0, step := 0 }

/-- C1: for every valid input record — any representable key and any 64-bit
`value`/`wall_time` bit patterns (hence including 0, −0.0, NaN, ±Inf and 1/3
bit-exactly) and any step including 0 — decoding the bytes produced by
`encode` yields a record equal in all fields to the input. -/
theorem claim1_roundtrip (r : EventRecord) (h : Valid r) :
    encode r = .ok (frameBytes r) ∧ decode (frameBytes r) = .record r [] := by
  refine ⟨by simp [encode, h.1], ?_⟩
  have hd := decode_frame_exact r [] h
  rwa [List.append_nil] at hd

/-- Witness for C1 at a concrete record carrying the NaN bit pattern as
value, the bit pattern of 1/3 as wall time, and step 0. -/
theorem claim1_roundtrip_witness :
    Valid nanRec
      ∧ (encode nanRec = .ok (frameBytes nanRec)
          ∧ decode (frameBytes nanRec) = .record nanRec []) :=
  ⟨by decide, claim1_roundtrip nanRec (by decide)⟩

/-- C2: from a fresh logger, any sequence of successful `log` calls that use
the internal step counter produces a file whose decoded records are exactly
the calls in call order, with steps `0, 1, 2, …` — in particular
non-decreasing; nothing reorders or batches them. -/
theorem claim2_order (dir : String) (calls : List LogCall)
    (hkeys : ∀ c ∈ calls, keyOk c.key = true)
    (hnone : ∀ c ∈ calls, c.stepOpt = none)
    (hlen : calls.length ≤ 2 ^ 64) :
    decodeAll (runLogs (mkLogger dir) calls).file = some (expectedRecords calls 0)
      ∧ (expectedRecords calls 0).map EventRecord.step = List.range' 0 calls.length
      ∧ List.Chain' (· ≤ ·) ((expectedRecords calls 0).map EventRecord.step) := by
  have h1 : decodeAll (runLogs (mkLogger dir) calls).file = some (expectedRecords calls 0) :=
    decodeAll_runLogs calls (mkLogger dir) rfl rfl hkeys
  have h2 := expectedRecords_steps calls 0 hnone (by omega)
  exact ⟨h1, h2, h2 ▸ range'_chain_le 0 calls.length⟩

/-- Witness for C2 on the demo's scenario: three `foo` records with values
0, 1.333… and 1.666… logged with the internal counter. -/
theorem claim2_order_witness :
    decodeAll (runLogs (mkLogger "run-seed0") demoCalls).file
        = some (expectedRecords demoCalls 0)
      ∧ (expectedRecords demoCalls 0).map EventRecord.step
          = List.range' 0 demoCalls.length
      ∧ List.Chain' (· ≤ ·) ((expectedRecords demoCalls 0).map EventRecord.step) :=
  claim2_order "run-seed0" demoCalls (by decide) (by decide) (by decide)

/-- C3: at a frame boundary, no remaining bytes decode to the clean
`endOfStream` signal while a partial frame decodes to `corrupt`, and the two
are distinct: truncating the last byte of a valid two-frame file still
decodes the first frame but makes the second frame decode to `corrupt`,
whereas the file with exactly one complete frame reaches `endOfStream`. -/
theorem claim3_truncation (r1 r2 : EventRecord) (h1 : Valid r1) (h2 : Valid r2) :
    decode ((frameBytes r1 ++ frameBytes r2).dropLast)
        = .record r1 ((frameBytes r2).dropLast)
      ∧ decode ((frameBytes r2).dropLast) = .corrupt
      ∧ decode (frameBytes r1) = .record r1 []
      ∧ decode ([] : List Nat) = .endOfStream
      ∧ DecodeResult.corrupt ≠ DecodeResult.endOfStream := by
  have hfne : frameBytes r2 ≠ [] := by
    intro h
    have hl := congrArg List.length h
    rw [frameBytes_length] at hl
    simp at hl
  have hdl : (frameBytes r1 ++ frameBytes r2).dropLast
      = frameBytes r1 ++ (frameBytes r2).dropLast :=
    List.dropLast_append_of_ne_nil _ hfne
  refine ⟨?_, decode_dropLast_frame r2 (keyOk_length h2.1), ?_, rfl, by simp⟩
  · rw [hdl, decode_frame_exact r1 _ h1]
  · have hd := decode_frame_exact r1 [] h1
    rwa [List.append_nil] at hd

/-- Witness for C3 on a concrete two-frame file (second record carries the
−0.0 bit pattern). -/
theorem claim3_truncation_witness :
    decode ((frameBytes zeroRec ++ frameBytes negZeroRec).dropLast)
        = .record zeroRec ((frameBytes negZeroRec).dropLast)
      ∧ decode ((frameBytes negZeroRec).dropLast) = .corrupt
      ∧ decode (frameBytes zeroRec) = .record zeroRec []
      ∧ decode ([] : List Nat) = .endOfStream
      ∧ DecodeResult.corrupt ≠ DecodeResult.endOfStream :=
  claim3_truncation zeroRec negZeroRec (by decide) (by decide)

/-- C4: a `log` call whose storage write fails reports `WriteError` and
leaves the logger state — in particular the step counter and the backing
file — exactly as before the call, so a retry behaves as if the failed call
had never been made (no duplicate-but-shifted step sequence). -/
theorem claim4_retry (s : LoggerState) (key : List Nat) (v : Value)
    (stepOpt : Option Nat) (wall : Nat)
    (hopen : s.closed = false) (hk : keyOk key = true) :
    log s key v stepOpt wall false = (.error .writeError, s)
      ∧ (log s key v stepOpt wall false).2.step_counter = s.step_counter
      ∧ (log s key v stepOpt wall false).2.file = s.file
      ∧ (∀ key' v' stepOpt' wall',
          log (log s key v stepOpt wall false).2 key' v' stepOpt' wall' true
            = log s key' v' stepOpt' wall' true) := by
  have hmain : log s key v stepOpt wall false = (.error .writeError, s) := by
    simp [log, encode, hopen, hk]
  exact ⟨hmain, by rw [hmain], by rw [hmain], fun k' v' st' w' => by rw [hmain]⟩

/-- Witness for C4: an injected write failure on a fresh logger. -/
theorem claim4_retry_witness :
    log (mkLogger "run-seed0") sampleKey (.intVal 1) none 9 false
      = (.error .writeError, mkLogger "run-seed0") :=
  (claim4_retry (mkLogger "run-seed0") sampleKey (.intVal 1) none 9 rfl (by decide)).1

/-- C5: every `log` call on a closed logger fails with `ClosedLoggerError`
and leaves the backing file unmodified — the logger stays closed and is
never silently reopened. -/
theorem claim5_post_close (s : LoggerState) (key : List Nat) (v : Value)
    (stepOpt : Option Nat) (wall : Nat) (writeOk : Bool) :
    log (close s) key v stepOpt wall writeOk = (.error .closedLogger, close s)
      ∧ (log (close s) key v stepOpt wall writeOk).2.file = s.file
      ∧ (log (close s) key v stepOpt wall writeOk).2.closed = true := by
  have hmain : log (close s) key v stepOpt wall writeOk
      = (.error .closedLogger, close s) := by
    simp [log, close]
  refine ⟨hmain, ?_, ?_⟩ <;> rw [hmain] <;> rfl

/-- C6: `encode` never fails on a valid record, and it is injective on valid
records: equal encodings force equal records, so distinct well-formed inputs
produce distinct byte sequences. -/
theorem claim6_total_injective :
    (∀ r : EventRecord, Valid r → encode r = .ok (frameBytes r))
      ∧ (∀ r1 r2 : EventRecord, Valid r1 → Valid r2 →
          encode r1 = encode r2 → r1 = r2) := by
  constructor
  · intro r h
    simp [encode, h.1]
  · intro r1 r2 h1 h2 heq
    rw [show encode r1 = .ok (frameBytes r1) by simp [encode, h1.1],
      show encode r2 = .ok (frameBytes r2) by simp [encode, h2.1]] at heq
    have hfb : frameBytes r1 = frameBytes r2 := by injection heq
    have d1 := decode_frame_exact r1 [] h1
    have d2 := decode_frame_exact r2 [] h2
    rw [List.append_nil] at d1 d2
    rw [hfb] at d1
    have hrec := d1.symm.trans d2
    cases hrec
    rfl

/-- Witness for C6 at a concrete valid record (value +Inf). -/
theorem claim6_total_injective_witness :
    encode infRec = .ok (frameBytes infRec) ∧ infRec = infRec :=
  ⟨claim6_total_injective.1 infRec (by decide),
   claim6_total_injective.2 infRec infRec (by decide) (by decide) rfl⟩

/-- C7: `encode` fails with `EncodingError` exactly when the key exceeds the
format's maximum representable length (65535) or contains a byte outside the
chosen ASCII encoding; the failure is the call's synchronous return value,
and a `log` call with such a key appends nothing to the file. -/
theorem claim7_encoding_error (r : EventRecord) :
    (encode r = .error .encodingError
        ↔ (65535 < r.key.length ∨ ∃ b ∈ r.key, ¬ b < 128))
      ∧ (∀ s : LoggerState, ∀ v stepOpt wall writeOk, s.closed = false →
          keyOk r.key = false →
          log s r.key v stepOpt wall writeOk = (.error .encodingError, s)) := by
  constructor
  · have hiff : encode r = Except.error EncodeError.encodingError
        ↔ keyOk r.key = false := by
      cases hkb : keyOk r.key <;> simp [encode, hkb]
    have hkey : keyOk r.key = false
        ↔ 65535 < r.key.length ∨ ∃ b ∈ r.key, ¬ b < 128 := by
      rw [← Bool.not_eq_true]
      simp only [keyOk, Bool.and_eq_true, decide_eq_true_eq, List.all_eq_true]
      push_neg
      constructor
      · intro h
        by_cases hl : r.key.length ≤ 65535
        · obtain ⟨b, hb, hlt⟩ := h hl
          exact Or.inr ⟨b, hb, by simpa using hlt⟩
        · exact Or.inl (by omega)
      · rintro (h | ⟨b, hb, hlt⟩)
        · intro hl
          omega
        · intro _
          exact ⟨b, hb, by simpa using hlt⟩
    exact hiff.trans hkey
  · intro s v stepOpt wall writeOk hopen hk
    simp [log, encode, hopen, hk]

/-- Witness for C7 at a key containing the non-ASCII byte 200. -/
theorem claim7_encoding_error_witness :
    (encode badKeyRec = .error .encodingError
        ↔ (65535 < badKeyRec.key.length ∨ ∃ b ∈ badKeyRec.key, ¬ b < 128))
      ∧ log (mkLogger "d") badKeyRec.key (.intVal 0) none 0 true
          = (.error .encodingError, mkLogger "d") :=
  ⟨(claim7_encoding_error badKeyRec).1,
   (claim7_encoding_error badKeyRec).2 (mkLogger "d") (.intVal 0) none 0 true rfl
     (by decide)⟩

/-- C8: `log` accepts both integer and floating-point values; an integer
input behaves exactly as its widened double bit pattern, the widening is
numerically exact for every integer of magnitude below `2 ^ 53`, and the
integer 0 is recorded as the double 0.0 (bit pattern 0). -/
theorem claim8_widening :
    (∀ s key n stepOpt wall writeOk,
        log s key (.intVal n) stepOpt wall writeOk
          = log s key (.floatVal (intToDoubleBits n)) stepOpt wall writeOk)
      ∧ intToDoubleBits 0 = 0
      ∧ (∀ n : Int, n.natAbs < 2 ^ 53 → bitsToRat (intToDoubleBits n) = some (n : ℚ)) :=
  ⟨fun _ _ _ _ _ _ => rfl, rfl, intToDoubleBits_exact⟩

/-- Witness for C8: the widening of −3 reads back as the rational −3. -/
theorem claim8_widening_witness :
    bitsToRat (intToDoubleBits (-3)) = some ((-3 : Int) : ℚ) :=
  claim8_widening.2.2 (-3) (by decide)

/-- C9: the output directory is a required construction-time input of
`mkLogger`; the constructed logger carries exactly that directory and no
operation — `log` with any outcome, `close`, or a whole run of calls — ever
changes it, so a logger cannot exist without its construction directory. -/
theorem claim9_directory (dir : String) :
    (mkLogger dir).directory = dir
      ∧ (∀ s : LoggerState, ∀ key v stepOpt wall writeOk,
          (log s key v stepOpt wall writeOk).2.directory = s.directory)
      ∧ (∀ s : LoggerState, (close s).directory = s.directory)
      ∧ (∀ (s : LoggerState) (calls : List LogCall),
          (runLogs s calls).directory = s.directory) :=
  ⟨rfl, fun s key v stepOpt wall writeOk => log_snd_directory s key v stepOpt wall writeOk,
   fun _ => rfl, fun s calls => runLogs_directory s calls⟩

/-- C10: after any sequence of successful `log` calls — explicit steps
allowed — the backing file of a fresh, never-closed logger already consists
of exactly one complete decodable frame per call, in call order; `close` is
not needed for the records to be durable and readable. -/
theorem claim10_durable (dir : String) (calls : List LogCall)
    (hkeys : ∀ c ∈ calls, keyOk c.key = true) :
    decodeAll (runLogs (mkLogger dir) calls).file = some (expectedRecords calls 0)
      ∧ (expectedRecords calls 0).length = calls.length
      ∧ (runLogs (mkLogger dir) calls).closed = false :=
  ⟨decodeAll_runLogs calls (mkLogger dir) rfl rfl hkeys,
   expectedRecords_length calls 0,
   (runLogs_spec calls (mkLogger dir) rfl hkeys).2.1⟩

/-- Witness for C10 on two calls, the first with an explicit step. -/
theorem claim10_durable_witness :
    decodeAll (runLogs (mkLogger "run-seed1") durableCalls).file
        = some (expectedRecords durableCalls 0)
      ∧ (expectedRecords durableCalls 0).length = durableCalls.length
      ∧ (runLogs (mkLogger "run-seed1") durableCalls).closed = false :=
  claim10_durable "run-seed1" durableCalls (by decide)

end EasyTfLog
